import Mathlib

/-!
Verification development for the mkint static-analysis pass (src/mkint/mkint.cpp).

The pass works over LLVM IR and represents integer sets with `llvm::ConstantRange`
(wrapped intervals over a fixed bit-width), wrapped in the repository's `crange`
struct.  The `ConstantRange` library itself is not part of the repository's
sources, so its operations are modelled here from the specification (spec.md
section 4.1: interval operations "produce the tightest representable
over-approximation" of the corresponding set operation on wrapped ranges).
The control flow of the pass itself (auto_promote, the branch/switch merge in
range_analysis, the OOB check, mark_errors, mark_func_sinks, is_sink_reachable,
and the two fixed-point loops in run) is translated directly from mkint.cpp.
-/

/-- Modelled from the spec: a wrapped interval over `bw`-bit integers, mirroring
the representation of `llvm::ConstantRange` (the base of the repository's
`crange`): a half-open wrapped range `[lo, hi)`; the degenerate `lo = hi`
representation is the empty set when `lo = 0` and the full set when
`lo = 2^bw - 1` (the `ConstantRange(bw, full)` constructor conventions used by
`crange`'s constructors in mkint.cpp). -/
structure crange where
  bw : Nat
  lo : Nat
  hi : Nat
deriving DecidableEq

/-- Modelled from the spec: membership of `x` in the wrapped range. -/
def coverMem (bw lo hi x : Nat) : Bool :=
  if lo == hi then lo == 2 ^ bw - 1
  else if lo < hi then decide (lo ≤ x) && decide (x < hi)
  else decide (lo ≤ x) || decide (x < hi)

def crange.wmem (r : crange) (x : Nat) : Bool :=
  coverMem r.bw r.lo r.hi x

/-- The elements (below `2^bw`) of a wrapped range, in increasing order. -/
def crange.elems (r : crange) : List Nat :=
  (List.range (2 ^ r.bw)).filter (fun x => r.wmem x)

/-- Number of elements of the candidate wrapped range `[lo, hi)` at width `bw`. -/
def coverSize (bw lo hi : Nat) : Nat :=
  ((List.range (2 ^ bw)).filter (fun x => coverMem bw lo hi x)).length

/-- Does the candidate wrapped range `[lo, hi)` contain every element of `S`? -/
def coverOK (bw lo hi : Nat) (S : List Nat) : Bool :=
  S.all (fun x => coverMem bw lo hi x)

/-- Modelled from the spec: the tightest representable over-approximation of the
set `S` as a `bw`-bit wrapped range (spec 4.1).  Deterministic tie-break: the
first candidate in `(lo, hi)` lexicographic order among those of minimal
cardinality. -/
def tightestCover (bw : Nat) (S : List Nat) : crange :=
  let pick := (List.range (2 ^ bw)).foldl (fun acc lo =>
    (List.range (2 ^ bw)).foldl (fun acc2 hi =>
      if coverOK bw lo hi S then
        match acc2 with
        | none => some (lo, hi)
        | some best =>
          if coverSize bw lo hi < coverSize bw best.1 best.2 then some (lo, hi)
          else some best
      else acc2) acc) none
  match pick with
  | some p => crange.mk bw p.1 p.2
  | none => crange.mk bw (2 ^ bw - 1) (2 ^ bw - 1)

/-- The empty `bw`-bit range: `crange(bw, false)` in mkint.cpp, i.e.
`ConstantRange(bw, Full = false)` = `[0, 0)`. -/
def crange.empty (bw : Nat) : crange := crange.mk bw 0 0

/-- The full `bw`-bit range: `crange(bw)` in mkint.cpp defaults to the full set,
represented `[max, max)`. -/
def crange.full (bw : Nat) : crange := crange.mk bw (2 ^ bw - 1) (2 ^ bw - 1)

/-- `ConstantRange(APInt v)`: the singleton `[v, v+1)` (wrapping at the top). -/
def singletonR (bw v : Nat) : crange :=
  crange.mk bw (v % 2 ^ bw) ((v + 1) % 2 ^ bw)

def crange.isEmptySet (r : crange) : Bool :=
  r.lo == r.hi && r.lo == 0

def crange.isFullSet (r : crange) : Bool :=
  r.lo == r.hi && r.lo == 2 ^ r.bw - 1

/-- Modelled from the spec: `unionWith` is the tightest wrapped range containing
both operands (spec 4.1).  Both operands share the bit-width in the IR. -/
def crange.unionWith (a b : crange) : crange :=
  tightestCover a.bw (a.elems ++ b.elems)

/-- Modelled from the spec: `intersectWith` is the tightest wrapped range
containing the set intersection. -/
def crange.intersectWith (a b : crange) : crange :=
  tightestCover a.bw (a.elems.filter (fun x => b.wmem x))

/-- `ConstantRange::inverse`: the set complement, which is exactly representable
as the wrapped range `[hi, lo)`. -/
def crange.inverse (r : crange) : crange :=
  if r.isFullSet then crange.empty r.bw
  else if r.isEmptySet then crange.full r.bw
  else crange.mk r.bw r.hi r.lo

/-- Modelled from the spec: `unsignedMax` of the range (0 for the empty set; the
operations "must not panic on empty or full inputs", spec 4.1). -/
def crange.getUnsignedMax (r : crange) : Nat :=
  r.elems.foldl max 0

/-- Modelled from the spec: zero-extension to a wider width keeps the same set
of values. -/
def crange.zeroExtend (r : crange) (w : Nat) : crange :=
  tightestCover w r.elems

/-- Modelled from the spec: truncation to a narrower width reduces every element
modulo `2^w` and takes the tightest cover. -/
def crange.truncate (r : crange) (w : Nat) : crange :=
  tightestCover w (r.elems.map (fun x => x % 2 ^ w))

/-- `ConstantRange::zextOrTrunc(w)`: zero-extend if narrower than `w`, truncate
if wider, and return the range unchanged if the widths already agree. -/
def crange.zextOrTrunc (r : crange) (w : Nat) : crange :=
  if r.bw < w then r.zeroExtend w
  else if w < r.bw then r.truncate w
  else r

/-- Translated from mkint.cpp, `auto_promote` (lines 177-185): when the widths
differ, the code calls `zextOrTrunc` with the operand's own current bit-width
(`lhs.zextOrTrunc(lhs.getBitWidth())`, resp. `rhs.zextOrTrunc(rhs.getBitWidth())`). -/
def auto_promote (lhs rhs : crange) : crange × crange :=
  if lhs.bw < rhs.bw then (lhs.zextOrTrunc lhs.bw, rhs)
  else if rhs.bw < lhs.bw then (lhs, rhs.zextOrTrunc rhs.bw)
  else (lhs, rhs)

/-- The binary opcodes dispatched by `compute_binary_rng` in mkint.cpp; the
`unhandled` constructor stands for any other opcode, for which the code logs
and falls through to `return rhs`. -/
inductive BinOp where
  | add | sub | mul | udiv | sdiv | shl | lshr | ashr
  | bAnd | bOr | bXor | urem | srem
  | unhandled
deriving DecidableEq

/-- Translated from mkint.cpp, `compute_binary_rng` (lines 187-224): promote the
operand pair with `auto_promote`, then dispatch on the opcode.  The individual
interval operations live in the external `ConstantRange` library (not in src/),
so the dispatch table `T` is a parameter. -/
def compute_binary_rng (T : BinOp → crange → crange → crange) (op : BinOp)
    (lhs_ rhs_ : crange) : crange :=
  let p := auto_promote lhs_ rhs_
  match op with
  | BinOp.unhandled => p.2
  | o => T o p.1 p.2

/-- Claim C1: the claim states that `auto_promote` returns the pair with the
narrower interval promoted to the wider of the two bit-widths by zero-extension
before the binary operation is dispatched.  In fact `auto_promote` is the
identity: it calls `zextOrTrunc` with the operand's own bit-width, a no-op, so
the operands reach the dispatched operation with their widths unchanged. -/
theorem C1_auto_promote_is_noop :
    ∀ (T : BinOp → crange → crange → crange) (op : BinOp) (l r : crange),
      auto_promote l r = (l, r) ∧
      compute_binary_rng T op l r =
        (match op with
         | BinOp.unhandled => r
         | o => T o l r) := by
  have hzot : ∀ r : crange, r.zextOrTrunc r.bw = r := by
    intro r
    simp [crange.zextOrTrunc]
  intro T op l r
  have hap : auto_promote l r = (l, r) := by
    unfold auto_promote
    split
    · rw [hzot]
    · split
      · rw [hzot]
      · rfl
  refine ⟨hap, ?_⟩
  unfold compute_binary_rng
  rw [hap]

/-- The iteration cap of the range-analysis fixed point in `run`
(mkint.cpp line 725: `constexpr size_t max_try = 128`). -/
def max_try : Nat := 128

/-- Translated from mkint.cpp, `run` (lines 735-751): the iterative
range-analysis loop.  `step` is one round of `range_analysis` over all
functions in `m_range_analysis_funcs`, acting on the packed analysis state
(`m_func2range_info`, `m_global2range`, `m_func2ret_range`); the loop snapshots
the state, runs one round, breaks if the state is unchanged, and otherwise
breaks once `++try_count > max_try`.  The first argument of `raGo` is the
number of remaining permitted rounds, `(max_try + 1) - try_count`; the returned
`Nat` counts the rounds of per-function analysis actually executed. -/
def raGo {S : Type} [DecidableEq S] (step : S → S) : Nat → S → Nat × S
  | 0, s => (0, s)
  | r + 1, s =>
    let s2 := step s
    if s2 = s then (1, s2)
    else if r = 0 then (1, s2)
    else
      let p := raGo step r s2
      (p.1 + 1, p.2)

/-- The loop of `run` starts with `try_count = 0`, i.e. `max_try + 1` permitted
rounds. -/
def raLoop {S : Type} [DecidableEq S] (step : S → S) (s : S) : Nat × S :=
  raGo step (max_try + 1) s

theorem raGo_succ_eq {S : Type} [DecidableEq S] (step : S → S) (r : Nat) (s : S) :
    raGo step (r + 1) s =
      if step s = s then (1, step s)
      else if r = 0 then (1, step s)
      else ((raGo step r (step s)).1 + 1, (raGo step r (step s)).2) := rfl

theorem raGo_succ_never_stable :
    ∀ (r : Nat) (s : Nat), (raGo Nat.succ (r + 1) s).1 = r + 1 := by
  intro r
  induction r with
  | zero =>
    intro s
    rw [raGo_succ_eq, if_neg (Nat.succ_ne_self s)]
    simp
  | succ n ih =>
    intro s
    rw [raGo_succ_eq, if_neg (Nat.succ_ne_self s), if_neg (Nat.succ_ne_zero n)]
    simp [ih]

theorem raGo_rounds_le {S : Type} [DecidableEq S] (step : S → S) :
    ∀ (r : Nat) (s : S), (raGo step r s).1 ≤ r := by
  intro r
  induction r with
  | zero => intro s; simp [raGo]
  | succ n ih =>
    intro s
    rw [raGo_succ_eq]
    split
    · exact Nat.le_add_left 1 n
    · split
      · exact Nat.le_add_left 1 n
      · exact Nat.succ_le_succ (ih (step s))

/-- Counterexample to Claim C2 as stated: with a step function that never
stabilizes, the loop performs 129 rounds of the per-function analysis, not at
most 128. -/
theorem C2_cap_counterexample :
    (raLoop Nat.succ 0).1 = 129 ∧ ¬ (raLoop Nat.succ 0).1 ≤ max_try := by
  have h : (raLoop Nat.succ 0).1 = 129 := by
    show (raGo Nat.succ (max_try + 1) 0).1 = 129
    rw [raGo_succ_never_stable max_try 0]
    decide
  exact ⟨h, by rw [h]; decide⟩

theorem raGo_stable_eq {S : Type} [DecidableEq S] (step : S → S) (r : Nat) (s : S)
    (h : step s = s) : raGo step (r + 1) s = (1, step s) := by
  rw [raGo_succ_eq, if_pos h]

/-- Claim C2 (amended): the iterative range analysis always terminates; it
stops immediately (after a single round) as soon as the state equals its
pre-iteration snapshot, and otherwise performs at most 129 rounds — one more
than the 128 cap, because the cap check `++try_count > max_try` runs after the
round — before aborting and reporting what it has. -/
theorem C2_loop_terminates {S : Type} [DecidableEq S] (step : S → S) (s : S) :
    (raLoop step s).1 ≤ max_try + 1 ∧
    (step s = s → raLoop step s = (1, step s)) := by
  constructor
  · exact raGo_rounds_le step (max_try + 1) s
  · intro h
    show raGo step (max_try + 1) s = (1, step s)
    exact raGo_stable_eq step max_try s h

/-- Witness for C2: at a concrete already-stable state the loop stops after one
round. -/
theorem C2_loop_terminates_witness : raLoop id (0 : Nat) = (1, id 0) :=
  (C2_loop_terminates id 0).2 rfl

/-- The ten integer comparison predicates of `ICmpInst`. -/
inductive IPred where
  | eq | ne | ult | ule | ugt | uge | slt | sle | sgt | sge
deriving DecidableEq

/-- Two's-complement signed reading of a `bw`-bit value. -/
def toSigned (bw x : Nat) : Int :=
  if x < 2 ^ (bw - 1) then (x : Int) else (x : Int) - (2 ^ bw : Nat)

def ipredHolds (bw : Nat) : IPred → Nat → Nat → Bool
  | IPred.eq, a, b => a == b
  | IPred.ne, a, b => a != b
  | IPred.ult, a, b => decide (a < b)
  | IPred.ule, a, b => decide (a ≤ b)
  | IPred.ugt, a, b => decide (b < a)
  | IPred.uge, a, b => decide (b ≤ a)
  | IPred.slt, a, b => decide (toSigned bw a < toSigned bw b)
  | IPred.sle, a, b => decide (toSigned bw a ≤ toSigned bw b)
  | IPred.sgt, a, b => decide (toSigned bw b < toSigned bw a)
  | IPred.sge, a, b => decide (toSigned bw b ≤ toSigned bw a)

/-- `CmpInst::getSwappedPredicate`: the predicate with the operands exchanged. -/
def IPred.swap : IPred → IPred
  | IPred.eq => IPred.eq
  | IPred.ne => IPred.ne
  | IPred.ult => IPred.ugt
  | IPred.ule => IPred.uge
  | IPred.ugt => IPred.ult
  | IPred.uge => IPred.ule
  | IPred.slt => IPred.sgt
  | IPred.sle => IPred.sge
  | IPred.sgt => IPred.slt
  | IPred.sge => IPred.sle

/-- `CmpInst::getInversePredicate`: the logical negation of the predicate. -/
def IPred.inv : IPred → IPred
  | IPred.eq => IPred.ne
  | IPred.ne => IPred.eq
  | IPred.ult => IPred.uge
  | IPred.ule => IPred.ugt
  | IPred.ugt => IPred.ule
  | IPred.uge => IPred.ult
  | IPred.slt => IPred.sge
  | IPred.sle => IPred.sgt
  | IPred.sgt => IPred.sle
  | IPred.sge => IPred.slt

/-- Modelled from the spec: `crange::cmpRegion()` is
`ConstantRange::makeAllowedICmpRegion`, which the spec describes as
`fromCompare(pred, rhs)`: the tightest range containing every `x` with
`∃ y ∈ rhs, x pred y` (spec 4.1). -/
def cmpRegion (p : IPred) (other : crange) : crange :=
  tightestCover other.bw
    ((List.range (2 ^ other.bw)).filter
      (fun x => other.elems.any (fun y => ipredHolds other.bw p x y)))

/-- An integer IR value as seen by `get_range_by_bb` in mkint.cpp: an integer
constant (with its bit-width), an SSA instruction value, or a global variable. -/
inductive MVal where
  | cst (bw : Nat) (v : Nat)
  | var (id : Nat) (bw : Nat)
  | gvar (id : Nat) (bw : Nat)
deriving DecidableEq

def MVal.width : MVal → Nat
  | MVal.cst bw _ => bw
  | MVal.var _ bw => bw
  | MVal.gvar _ bw => bw

def MVal.isCst : MVal → Bool
  | MVal.cst _ _ => true
  | _ => false

/-- The per-block abstract store `DenseMap<const Value*, crange>` of mkint.cpp,
as an association list with at most one binding per key. -/
abbrev VState := List (MVal × crange)

def lookupV : VState → MVal → Option crange
  | [], _ => none
  | (k, r) :: t, v => if k = v then some r else lookupV t v

def setV : VState → MVal → crange → VState
  | [], v, r => [(v, r)]
  | (k, x) :: t, v, r => if k = v then (v, r) :: t else (k, x) :: setV t v r

/-- The default-constructed `crange()` of mkint.cpp: `ConstantRange(0, true)`,
produced by `DenseMap::operator[]` on a missing key. -/
def crangeDflt : crange := crange.mk 0 0 0

/-- Translated from mkint.cpp, the `get_range_by_bb` lambda in `range_analysis`
(lines 260-271): a constant yields its singleton range; otherwise the value is
looked up in the block's store; a global missing from the store falls back to
`m_global2range`; any other missing value is `MKINT_CHECK_ABORT` (here `none`). -/
def getRangeByBB (glob : Nat → crange) (st : VState) (v : MVal) : Option crange :=
  match v with
  | MVal.cst bw c => some (singletonR bw c)
  | _ =>
    match lookupV st v with
    | some r => some r
    | none =>
      match v with
      | MVal.gvar gid _ => some (glob gid)
      | _ => none

/-- The six error kinds of `enum class interr` in mkint.cpp. -/
inductive ErrKind where
  | intOverflow | divByZero | badShift | arrayOob | deadTrueBr | deadFalseBr
deriving DecidableEq

/-- `m_impossible_branches[cmp] = is_true_br`: `std::map::operator[]` assignment,
which overwrites any previous binding of the key. -/
def mapInsert : List (Nat × Bool) → Nat → Bool → List (Nat × Bool)
  | [], k, b => [(k, b)]
  | (k0, b0) :: t, k, b =>
    if k0 = k then (k, b) :: t else (k0, b0) :: mapInsert t k b

def lookupD : List (Nat × Bool) → Nat → Option Bool
  | [], _ => none
  | (k0, b0) :: t, k => if k0 = k then some b0 else lookupD t k

def errOfFlag (b : Bool) : ErrKind :=
  if b then ErrKind.deadTrueBr else ErrKind.deadFalseBr

def isDeadKind : ErrKind → Bool
  | ErrKind.deadTrueBr => true
  | ErrKind.deadFalseBr => true
  | _ => false

/-- Translated from mkint.cpp, `mark_errors` (lines 877-889): each entry of
`m_impossible_branches` is annotated `DEAD_TRUE_BR`/`DEAD_FALSE_BR` according
to its flag, and each GEP of `m_gep_oob` is annotated `ARRAY_OOB` (instruction
identities are `Nat` ids; the result pairs each annotated instruction with its
error kind). -/
def mark_errors (dead : List (Nat × Bool)) (oob : List Nat) : List (Nat × ErrKind) :=
  dead.map (fun p => (p.1, errOfFlag p.2)) ++ oob.map (fun x => (x, ErrKind.arrayOob))

/-- The dead-branch recording step of `range_analysis` (lines 331-334 of
mkint.cpp): if the refined range of either comparison operand in the merged
state `st` is empty, record `m_impossible_branches[cmpId] = isTrueBr`. -/
def deadUpdate (lhs rhs : MVal) (st : VState) (dead : List (Nat × Bool))
    (cmpId : Nat) (isTrueBr : Bool) : List (Nat × Bool) :=
  if ((lookupV st lhs).getD crangeDflt).isEmptySet
      || ((lookupV st rhs).getD crangeDflt).isEmptySet
  then mapInsert dead cmpId isTrueBr else dead

/-- Translated from mkint.cpp, `range_analysis` (lines 284-338): the merge of a
predecessor `pred` that ends in a conditional branch on `ICmp(p, lhs, rhs)`
into the current block.  Operand ranges are read from the predecessor's
out-state; missing entries of the current block's store are initialised to the
empty range of the operand's width; each non-constant operand is refined by
intersecting with the allowed comparison region (with the inverse predicate on
the false successor) and unioned with the block's previous value; if either
resulting range is empty the comparison is recorded in
`m_impossible_branches[cmpId] = isTrueBr`.  Failure of either operand lookup is
`MKINT_CHECK_ABORT` (`none`). -/
def branchMergeStep (glob : Nat → crange) (predSt bbSt : VState) (cmpId : Nat)
    (p : IPred) (lhs rhs : MVal) (isTrueBr : Bool)
    (dead : List (Nat × Bool)) : Option (VState × List (Nat × Bool)) :=
  match getRangeByBB glob predSt lhs, getRangeByBB glob predSt rhs with
  | some lrng, some rrng =>
    let st1 := match lookupV bbSt lhs with
      | none => setV bbSt lhs (crange.empty lhs.width)
      | some _ => bbSt
    let st2 := match lookupV st1 rhs with
      | none => setV st1 rhs (crange.empty rhs.width)
      | some _ => st1
    let lprng := if isTrueBr then cmpRegion p rrng else cmpRegion p.inv rrng
    let rprng := if isTrueBr then cmpRegion p.swap lrng else cmpRegion p.inv lrng
    let newL := if lhs.isCst then lrng
      else (lrng.intersectWith lprng).unionWith ((lookupV st2 lhs).getD crangeDflt)
    let st3 := setV st2 lhs newL
    let newR := if rhs.isCst then rrng
      else (rrng.intersectWith rprng).unionWith ((lookupV st3 rhs).getD crangeDflt)
    let st4 := setV st3 rhs newR
    some (st4, deadUpdate lhs rhs st4 dead cmpId isTrueBr)
  | _, _ => none

/-- The emptiness test that `range_analysis` applies to the merged state (line
331 of mkint.cpp), read off a merge result. -/
def postEmptyCond (lhs rhs : MVal) : Option (VState × List (Nat × Bool)) → Bool
  | some (st, _) =>
    ((lookupV st lhs).getD crangeDflt).isEmptySet
      || ((lookupV st rhs).getD crangeDflt).isEmptySet
  | none => false

/-- The `m_impossible_branches` component of a merge result. -/
def deadOf (o : Option (VState × List (Nat × Bool))) : Option (List (Nat × Bool)) :=
  o.map (fun x => x.2)

theorem branchMergeStep_snd_eq (glob : Nat → crange) (predSt bbSt : VState)
    (cmpId : Nat) (p : IPred) (lhs rhs : MVal) (isTrueBr : Bool)
    (dead : List (Nat × Bool)) (st' : VState) (d' : List (Nat × Bool))
    (h : branchMergeStep glob predSt bbSt cmpId p lhs rhs isTrueBr dead
          = some (st', d')) :
    d' = deadUpdate lhs rhs st' dead cmpId isTrueBr := by
  unfold branchMergeStep at h
  split at h
  · simp only [Option.some.injEq, Prod.mk.injEq] at h
    obtain ⟨h1, h2⟩ := h
    rw [← h2, ← h1]
  · exact absurd h (by simp)

/-- Claim C3: during predecessor merge over a conditional branch on an ICmp, if
the refined interval of either operand becomes empty in the merged state, the
comparison is recorded in `m_impossible_branches` with the flag telling whether
the empty refinement occurred on the true successor, and `mark_errors`
annotates every recorded comparison `DEAD_TRUE_BR` when its flag is true and
`DEAD_FALSE_BR` when it is false. -/
theorem C3_dead_branch_record_and_mark :
    (∀ (glob : Nat → crange) (predSt bbSt : VState) (cmpId : Nat) (p : IPred)
       (lhs rhs : MVal) (isTrueBr : Bool) (dead : List (Nat × Bool)),
      postEmptyCond lhs rhs
          (branchMergeStep glob predSt bbSt cmpId p lhs rhs isTrueBr dead) = true →
      deadOf (branchMergeStep glob predSt bbSt cmpId p lhs rhs isTrueBr dead)
        = some (mapInsert dead cmpId isTrueBr))
    ∧ (∀ (dead : List (Nat × Bool)) (oob : List Nat) (c : Nat) (fl : Bool),
      (c, fl) ∈ dead → (c, errOfFlag fl) ∈ mark_errors dead oob) := by
  constructor
  · intro glob predSt bbSt cmpId p lhs rhs isTrueBr dead h
    cases hE : branchMergeStep glob predSt bbSt cmpId p lhs rhs isTrueBr dead with
    | none => rw [hE] at h; simp [postEmptyCond] at h
    | some pr =>
      obtain ⟨st', d'⟩ := pr
      have hd := branchMergeStep_snd_eq glob predSt bbSt cmpId p lhs rhs
        isTrueBr dead st' d' hE
      rw [hE] at h
      simp only [postEmptyCond] at h
      simp only [deadOf, Option.map]
      rw [hd]
      unfold deadUpdate
      rw [if_pos h]
  · intro dead oob c fl hmem
    unfold mark_errors
    exact List.mem_append_left _ (List.mem_map_of_mem _ hmem)

def wGlob3 : Nat → crange := fun _ => crange.empty 3

def wPredSt : VState := [(MVal.var 1 3, singletonR 3 5)]

/-- Witness for C3: merging a predecessor branching on `(var1 : i3) ult 2` into
the true successor, with `var1`'s predecessor range `{5}`, empties `var1`'s
refined range and records the comparison with the true flag. -/
theorem C3_dead_branch_witness :
    postEmptyCond (MVal.var 1 3) (MVal.cst 3 2)
      (branchMergeStep wGlob3 wPredSt [] 7 IPred.ult (MVal.var 1 3)
        (MVal.cst 3 2) true []) = true
    ∧ deadOf (branchMergeStep wGlob3 wPredSt [] 7 IPred.ult (MVal.var 1 3)
        (MVal.cst 3 2) true []) = some (mapInsert [] 7 true) :=
  ⟨by decide,
   C3_dead_branch_record_and_mark.1 wGlob3 wPredSt [] 7 IPred.ult
     (MVal.var 1 3) (MVal.cst 3 2) true [] (by decide)⟩

/-- The key list of an `m_impossible_branches` association list. -/
def keysOf (m : List (Nat × Bool)) : List Nat := m.map Prod.fst

theorem lookupD_mapInsert_self :
    ∀ (m : List (Nat × Bool)) (k : Nat) (b : Bool),
      lookupD (mapInsert m k b) k = some b := by
  intro m k b
  induction m with
  | nil => simp [mapInsert, lookupD]
  | cons hd t ih =>
    obtain ⟨k0, b0⟩ := hd
    by_cases hk : k0 = k
    · subst hk
      simp [mapInsert, lookupD]
    · simp [mapInsert, lookupD, hk, ih]

theorem mem_keys_mapInsert :
    ∀ (t : List (Nat × Bool)) (k : Nat) (b : Bool) (x : Nat),
      x ∈ keysOf (mapInsert t k b) ↔ (x ∈ keysOf t ∨ x = k) := by
  intro t k b x
  induction t with
  | nil => simp [mapInsert, keysOf]
  | cons hd t ih =>
    obtain ⟨k0, b0⟩ := hd
    by_cases hk : k0 = k
    · subst hk
      simp [mapInsert, keysOf]
      tauto
    · simp only [mapInsert, if_neg hk, keysOf, List.map_cons, List.mem_cons] at ih ⊢
      rw [ih]
      tauto

theorem nodup_keys_mapInsert :
    ∀ (m : List (Nat × Bool)) (k : Nat) (b : Bool),
      List.Nodup (keysOf m) → List.Nodup (keysOf (mapInsert m k b)) := by
  intro m k b h
  induction m with
  | nil => simp [mapInsert, keysOf]
  | cons hd t ih =>
    obtain ⟨k0, b0⟩ := hd
    simp only [keysOf, List.map_cons, List.nodup_cons] at h
    obtain ⟨hnin, hnd⟩ := h
    by_cases hk : k0 = k
    · subst hk
      rw [show mapInsert ((k0, b0) :: t) k0 b = (k0, b) :: t from if_pos rfl]
      simp only [keysOf, List.map_cons, List.nodup_cons]
      exact ⟨hnin, hnd⟩
    · rw [show mapInsert ((k0, b0) :: t) k b = (k0, b0) :: mapInsert t k b
            from if_neg hk]
      simp only [keysOf, List.map_cons, List.nodup_cons]
      refine ⟨?_, ih hnd⟩
      intro hmem
      rcases (mem_keys_mapInsert t k b k0).mp hmem with h1 | h2
      · exact hnin h1
      · exact hk h2

theorem isDeadKind_errOfFlag : ∀ b : Bool, isDeadKind (errOfFlag b) = true := by
  intro b
  cases b <;> rfl

theorem filter_oob_part_nil (oob : List Nat) (c : Nat) :
    (oob.map (fun x => (x, ErrKind.arrayOob))).filter
      (fun e => e.1 == c && isDeadKind e.2) = [] := by
  induction oob with
  | nil => rfl
  | cons x t ih =>
    have hp : (((x, ErrKind.arrayOob).1 == c) && isDeadKind (x, ErrKind.arrayOob).2)
        = false := by
      simp [isDeadKind]
    simp only [List.map_cons, List.filter_cons, hp]
    simpa using ih

theorem filter_dead_notkey_nil (t : List (Nat × Bool)) (c : Nat)
    (h : c ∉ keysOf t) :
    (t.map (fun p => (p.1, errOfFlag p.2))).filter
      (fun e => e.1 == c && isDeadKind e.2) = [] := by
  induction t with
  | nil => rfl
  | cons hd t ih =>
    obtain ⟨k0, b0⟩ := hd
    simp only [keysOf, List.map_cons, List.mem_cons] at h
    push_neg at h
    obtain ⟨h1, h2⟩ := h
    have hp : (((k0, errOfFlag b0).1 == c) && isDeadKind (k0, errOfFlag b0).2)
        = false := by
      simp [Ne.symm h1]
    simp only [List.map_cons, List.filter_cons, hp]
    simp only [Bool.false_eq_true, if_false]
    exact ih (by simpa [keysOf] using h2)

theorem filter_dead_singleton :
    ∀ (m : List (Nat × Bool)) (c : Nat) (fl : Bool),
      List.Nodup (keysOf m) → (c, fl) ∈ m →
      (m.map (fun p => (p.1, errOfFlag p.2))).filter
        (fun e => e.1 == c && isDeadKind e.2) = [(c, errOfFlag fl)] := by
  intro m
  induction m with
  | nil => intro c fl _ hmem; cases hmem
  | cons hd t ih =>
    intro c fl hnd hmem
    obtain ⟨k0, b0⟩ := hd
    simp only [keysOf, List.map_cons, List.nodup_cons] at hnd
    obtain ⟨hnin, hnd⟩ := hnd
    by_cases hk : k0 = c
    · subst hk
      have hfl : fl = b0 := by
        rcases List.mem_cons.mp hmem with h1 | h2
        · injection h1 with hA hB
        · exact absurd (List.mem_map_of_mem Prod.fst h2) hnin
      subst hfl
      have hp : (((k0, errOfFlag fl).1 == k0) && isDeadKind (k0, errOfFlag fl).2)
          = true := by
        simp [isDeadKind_errOfFlag]
      simp only [List.map_cons, List.filter_cons, hp, if_true]
      rw [filter_dead_notkey_nil t k0 (by simpa [keysOf] using hnin)]
    · have hmem2 : (c, fl) ∈ t := by
        rcases List.mem_cons.mp hmem with h1 | h2
        · exact absurd (congrArg Prod.fst h1).symm hk
        · exact h2
      have hp : (((k0, errOfFlag b0).1 == c) && isDeadKind (k0, errOfFlag b0).2)
          = false := by
        simp [hk]
      simp only [List.map_cons, List.filter_cons, hp]
      simp only [Bool.false_eq_true, if_false]
      exact ih c fl hnd hmem2

/-- Claim C10: `m_impossible_branches` maps each comparison to a single boolean
flag — a later record overwrites the earlier one and key uniqueness is
preserved — and `mark_errors` attaches exactly one dead-branch error to each
recorded comparison: `DEAD_TRUE_BR` when the flag is true, `DEAD_FALSE_BR`
when it is false. -/
theorem C10_one_dead_mark :
    (∀ (m : List (Nat × Bool)) (k : Nat) (b : Bool),
      lookupD (mapInsert m k b) k = some b)
    ∧ (∀ (m : List (Nat × Bool)) (k : Nat) (b : Bool),
      List.Nodup (keysOf m) → List.Nodup (keysOf (mapInsert m k b)))
    ∧ (∀ (m : List (Nat × Bool)) (oob : List Nat) (c : Nat) (fl : Bool),
      List.Nodup (keysOf m) → (c, fl) ∈ m →
      (mark_errors m oob).filter (fun e => e.1 == c && isDeadKind e.2)
        = [(c, errOfFlag fl)]) := by
  refine ⟨lookupD_mapInsert_self, nodup_keys_mapInsert, ?_⟩
  intro m oob c fl hnd hmem
  unfold mark_errors
  rw [List.filter_append, filter_oob_part_nil oob c,
    filter_dead_singleton m c fl hnd hmem, List.append_nil]

/-- Witness for C10: recording the false outcome of comparison 5 and then the
true outcome leaves a single binding `5 ↦ true`, and `mark_errors` (with GEP
list `[9]`) attaches exactly the single annotation `DEAD_TRUE_BR` to it. -/
theorem C10_one_dead_mark_witness :
    lookupD (mapInsert [(5, false)] 5 true) 5 = some true
    ∧ (mark_errors [(5, true)] [9]).filter (fun e => e.1 == 5 && isDeadKind e.2)
        = [(5, errOfFlag true)] :=
  ⟨C10_one_dead_mark.1 [(5, false)] 5 true,
   C10_one_dead_mark.2.2 [(5, true)] [9] 5 true (by decide) (by decide)⟩

/-- A `getelementptr` whose base is a global, as inspected by the `LoadInst`
branch of `range_analysis`: its identity, the global array it addresses, its
number of indices, and its index operand (`gep->getOperand(2)`). -/
structure GepInst where
  gid : Nat
  garr : Nat
  numIdx : Nat
  idx : MVal

/-- `std::set::insert`: adds `x` unless already present. -/
def insertSet (l : List Nat) (x : Nat) : List Nat :=
  if l.contains x then l else l ++ [x]

/-- `APInt::getLimitedValue()`: the value saturated to `UINT64_MAX`. -/
def limitedValue (u : Nat) : Nat := min u (2 ^ 64 - 1)

/-- Translated from mkint.cpp, `range_analysis` (lines 482-499): the OOB check
on a load whose address is a GEP into a global array.  If `m_garr2ranges` knows
the array and the GEP has exactly two indices, the index range is read with
`get_rng`; when `getUnsignedMax().getLimitedValue() >= arr_size` the GEP is
inserted into `m_gep_oob`.  Failure of the index lookup is `MKINT_CHECK_ABORT`
(`none`). -/
def gepLoadStep (garrMap : Nat → Option (List crange)) (glob : Nat → crange)
    (st : VState) (g : GepInst) (oob : List Nat) : Option (List Nat) :=
  match garrMap g.garr with
  | some arr =>
    if g.numIdx = 2 then
      match getRangeByBB glob st g.idx with
      | some idxRng =>
        some (if arr.length ≤ limitedValue idxRng.getUnsignedMax
              then insertSet oob g.gid else oob)
      | none => none
    else some oob
  | none => some oob

theorem mem_insertSet {l : List Nat} {x y : Nat}
    (h : y ∈ insertSet l x) : y ∈ l ∨ y = x := by
  unfold insertSet at h
  split at h
  · exact Or.inl h
  · rcases List.mem_append.mp h with h1 | h2
    · exact Or.inl h1
    · exact Or.inr (List.mem_singleton.mp h2)

/-- Claim C4: every GEP placed in `m_gep_oob` by the load check got there with
the unsigned maximum of its index interval at least the element count of the
addressed global array, and `mark_errors` annotates every recorded GEP with
`ARRAY_OOB`. -/
theorem C4_oob_gep_bound_and_mark :
    (∀ (garrMap : Nat → Option (List crange)) (glob : Nat → crange)
       (st : VState) (g : GepInst) (oob : List Nat) (x : Nat),
      x ∈ (gepLoadStep garrMap glob st g oob).getD [] →
      x ∈ oob ∨ (x = g.gid ∧ ∃ arr idxRng,
        garrMap g.garr = some arr ∧ getRangeByBB glob st g.idx = some idxRng ∧
        arr.length ≤ idxRng.getUnsignedMax))
    ∧ (∀ (dead : List (Nat × Bool)) (oobL : List Nat) (x : Nat),
      x ∈ oobL → (x, ErrKind.arrayOob) ∈ mark_errors dead oobL) := by
  constructor
  · intro garrMap glob st g oob x hx
    unfold gepLoadStep at hx
    cases hA : garrMap g.garr with
    | none => rw [hA] at hx; simp at hx; exact Or.inl hx
    | some arr =>
      rw [hA] at hx
      dsimp only at hx
      by_cases hn : g.numIdx = 2
      · rw [if_pos hn] at hx
        cases hR : getRangeByBB glob st g.idx with
        | none => rw [hR] at hx; simp at hx
        | some idxRng =>
          rw [hR] at hx
          simp only [Option.getD_some] at hx
          by_cases hle : arr.length ≤ limitedValue idxRng.getUnsignedMax
          · rw [if_pos hle] at hx
            rcases mem_insertSet hx with h1 | h2
            · exact Or.inl h1
            · refine Or.inr ⟨h2, arr, idxRng, rfl, rfl, ?_⟩
              exact le_trans hle (min_le_left _ _)
          · rw [if_neg hle] at hx
            exact Or.inl hx
      · rw [if_neg hn] at hx
        simp at hx
        exact Or.inl hx
  · intro dead oobL x hx
    unfold mark_errors
    exact List.mem_append_right _ (List.mem_map_of_mem _ hx)

def wGarrMap : Nat → Option (List crange) :=
  fun g => if g = 0 then some [crange.full 3, crange.full 3] else none

def wGepSt : VState := [(MVal.var 4 3, crange.mk 3 0 6)]

def wGep : GepInst := { gid := 11, garr := 0, numIdx := 2, idx := MVal.var 4 3 }

/-- Witness for C4: loading `garr0[idx]` with `idx`'s interval `[0, 6)` (whose
unsigned maximum 5 reaches past the 2-element array) inserts GEP 11 into
`m_gep_oob`, and the recorded GEP satisfies the claimed bound. -/
theorem C4_oob_gep_witness :
    (11 ∈ (gepLoadStep wGarrMap wGlob3 wGepSt wGep []).getD [])
    ∧ (11 ∈ ([] : List Nat) ∨ (11 = wGep.gid ∧ ∃ arr idxRng,
        wGarrMap wGep.garr = some arr ∧
        getRangeByBB wGlob3 wGepSt wGep.idx = some idxRng ∧
        arr.length ≤ idxRng.getUnsignedMax)) :=
  ⟨by decide,
   C4_oob_gep_bound_and_mark.1 wGarrMap wGlob3 wGepSt wGep [] 11 (by decide)⟩

/-- One case of a `SwitchInst` terminator as seen from the merged block: the
case constant and whether the case's successor is the block being merged. -/
structure SwCase where
  val : Nat
  toBB : Bool

/-- Translated from mkint.cpp, `range_analysis` (lines 340-378): the merge of a
predecessor ending in `Switch(cond, default, cases)` into the current block
`bb`.  The code reads `cond`'s range with `get_range_by_bb(cond, bb)` — from
the CURRENT block's store, not the predecessor's — then computes `emp` as the
union of the case constants targeting `bb` (or the inverse of the union of all
case constants when `bb` is the default destination) and stores
`cur_rng[cond] := cond_rng ∪ emp`. -/
def switchMergeStep (glob : Nat → crange) (predSt bbSt : VState) (cond : MVal)
    (condBw : Nat) (cases : List SwCase) (isDefault : Bool) : Option VState :=
  match getRangeByBB glob bbSt cond with
  | none => none
  | some condRng =>
    let emp0 := crange.empty condBw
    let emp := if isDefault then
        (cases.foldl (fun acc c => acc.unionWith (singletonR condBw c.val)) emp0).inverse
      else
        cases.foldl (fun acc c =>
          if c.toBB then acc.unionWith (singletonR condBw c.val) else acc) emp0
    some (setV bbSt cond (condRng.unionWith emp))

/-- Folding union over a value list, starting from the empty range. -/
def unionAll (bw : Nat) (vs : List Nat) : crange :=
  vs.foldl (fun a v => a.unionWith (singletonR bw v)) (crange.empty bw)

/-- The `emp` range of the claim, stated the spec's way: the union of the case
constants whose cases target `bb`, or the inverse of the union of all case
constants when `bb` is the default destination. -/
def empSpec (bw : Nat) (cases : List SwCase) (isDefault : Bool) : crange :=
  if isDefault then (unionAll bw (cases.map SwCase.val)).inverse
  else unionAll bw ((cases.filter (fun c => c.toBB)).map SwCase.val)

/-- The switch merge as Claim C5 states it: `B[val] := (P[val]) ∪ emp`, with
`val`'s interval taken from the PREDECESSOR's out-state. -/
def switchMergeClaim (glob : Nat → crange) (predSt bbSt : VState) (cond : MVal)
    (condBw : Nat) (cases : List SwCase) (isDefault : Bool) : Option VState :=
  match getRangeByBB glob predSt cond with
  | none => none
  | some condRng =>
    some (setV bbSt cond (condRng.unionWith (empSpec condBw cases isDefault)))

def cexGlob : Nat → crange := fun _ => crange.empty 3

def cexPredSt : VState := [(MVal.var 1 3, crange.mk 3 1 3)]

def cexBbSt : VState := [(MVal.var 1 3, crange.mk 3 5 7)]

def cexCases : List SwCase := [{ val := 6, toBB := true }]

/-- Counterexample to Claim C5 as stated: merging a switch predecessor where
the condition's range is `[1, 3)` in the predecessor's out-state but `[5, 7)`
in the current block, with a single case constant 6 targeting the block, the
code produces `[5, 7)` (it reads the condition's range from the current block),
not the claimed `P[val] ∪ emp`. -/
theorem C5_switch_uses_bb_state :
    (switchMergeStep cexGlob cexPredSt cexBbSt (MVal.var 1 3) 3 cexCases false).bind
      (fun st => lookupV st (MVal.var 1 3))
    ≠ (switchMergeClaim cexGlob cexPredSt cexBbSt (MVal.var 1 3) 3 cexCases false).bind
      (fun st => lookupV st (MVal.var 1 3)) := by
  decide

theorem lookupV_setV_self : ∀ (st : VState) (v : MVal) (r : crange),
    lookupV (setV st v r) v = some r := by
  intro st v r
  induction st with
  | nil => simp [setV, lookupV]
  | cons hd t ih =>
    obtain ⟨k, x⟩ := hd
    by_cases hk : k = v
    · subst hk
      simp [setV, lookupV]
    · simp [setV, lookupV, hk, ih]

theorem foldl_union_if_filter (bw : Nat) :
    ∀ (cs : List SwCase) (a : crange),
      cs.foldl (fun acc c =>
          if c.toBB then acc.unionWith (singletonR bw c.val) else acc) a
      = ((cs.filter (fun c => c.toBB)).map SwCase.val).foldl
          (fun acc v => acc.unionWith (singletonR bw v)) a := by
  intro cs
  induction cs with
  | nil => intro a; rfl
  | cons c t ih =>
    intro a
    by_cases hc : c.toBB
    · simp only [List.foldl_cons, if_pos hc, List.filter_cons_of_pos hc,
        List.map_cons, List.foldl_cons]
      exact ih _
    · simp only [List.foldl_cons, if_neg hc,
        List.filter_cons_of_neg hc]
      exact ih _

theorem foldl_union_map (bw : Nat) :
    ∀ (cs : List SwCase) (a : crange),
      cs.foldl (fun acc c => acc.unionWith (singletonR bw c.val)) a
      = (cs.map SwCase.val).foldl (fun acc v => acc.unionWith (singletonR bw v)) a := by
  intro cs
  induction cs with
  | nil => intro a; rfl
  | cons c t ih =>
    intro a
    simp only [List.map_cons, List.foldl_cons]
    exact ih _

/-- Claim C5 (amended): when a block `B` merges a non-back-edge predecessor
ending in `Switch(val, default, cases)`, `B`'s interval for `val` becomes the
union of `emp` with `val`'s interval looked up in `B`'s OWN current state
(constants resolving to their singleton range and globals to the global map) —
not with `val`'s interval from `P`'s out-state; `emp` is the union of the case
constants whose cases target `B`, or the inverse of the union of all case
constants when `B` is the default destination. -/
theorem C5_switch_merge_eq :
    ∀ (glob : Nat → crange) (predSt bbSt : VState) (cond : MVal) (condBw : Nat)
      (cases : List SwCase) (isDefault : Bool) (st' : VState),
      switchMergeStep glob predSt bbSt cond condBw cases isDefault = some st' →
      ∃ base, getRangeByBB glob bbSt cond = some base ∧
        lookupV st' cond = some (base.unionWith (empSpec condBw cases isDefault)) := by
  intro glob predSt bbSt cond condBw cases isDefault st' h
  unfold switchMergeStep at h
  cases hC : getRangeByBB glob bbSt cond with
  | none => rw [hC] at h; exact absurd h (by simp)
  | some condRng =>
    rw [hC] at h
    simp only [Option.some.injEq] at h
    refine ⟨condRng, rfl, ?_⟩
    rw [← h, lookupV_setV_self]
    congr 1
    congr 1
    unfold empSpec
    by_cases hd : isDefault
    · rw [if_pos hd, if_pos hd, unionAll, ← foldl_union_map condBw]
    · rw [if_neg hd, if_neg hd, unionAll, foldl_union_if_filter condBw]

/-- Witness for C5 (amended): on the counterexample data the merged interval of
the condition equals the union of its value in the block's own state with
`empSpec`. -/
theorem C5_switch_merge_witness :
    switchMergeStep cexGlob cexPredSt cexBbSt (MVal.var 1 3) 3 cexCases false
      = some [(MVal.var 1 3, crange.mk 3 5 7)]
    ∧ ∃ base, getRangeByBB cexGlob cexBbSt (MVal.var 1 3) = some base ∧
        lookupV [(MVal.var 1 3, crange.mk 3 5 7)] (MVal.var 1 3)
          = some (base.unionWith (empSpec 3 cexCases false)) :=
  ⟨by decide,
   C5_switch_merge_eq cexGlob cexPredSt cexBbSt (MVal.var 1 3) 3 cexCases false
     [(MVal.var 1 3, crange.mk 3 5 7)] (by decide)⟩

/-- Does the character list `pre` begin the character list `s`? -/
def nameStarts : List Char → List Char → Bool
  | [], _ => true
  | _ :: _, [] => false
  | p :: ps, c :: cs => p == c && nameStarts ps cs

/-- Translated from mkint.cpp, `is_taint_src` (lines 143-148): a function is a
taint source iff its demangled name begins with `sys_` or `__mkint_ann_`.
Names here are already-demangled character lists (demangling itself lives in
the external `cxxabi` library). -/
def is_taint_src (n : List Char) : Bool :=
  nameStarts "sys_".data n || nameStarts "__mkint_ann_".data n

/-- An instruction of a function body as relevant to the return-sink rule:
whether it is a `ReturnInst`, and its current `mkint.sink` metadata. -/
structure RInst where
  isRet : Bool
  sinkMD : Option (List Char)
deriving DecidableEq

/-- A user of the function value, as inspected by `mark_func_sinks`: whether the
user is an instruction, and the name of the function containing it. -/
structure FnUser where
  isInst : Bool
  parentName : List Char
deriving DecidableEq

/-- A function as seen by the return-sink rule of `mark_func_sinks`. -/
structure MFunc where
  name : List Char
  retInt : Bool
  users : List FnUser
  insts : List RInst
deriving DecidableEq

/-- Translated from mkint.cpp, `mark_func_sinks` (lines 671-694): if the
function is a taint source, returns an integer and is used at all, and at least
one user is an instruction in a function that is not itself a taint source,
then every `ReturnInst` is annotated `SINK("return")`; otherwise the function
is left unchanged by this rule. -/
def mark_ret_sinks (F : MFunc) : MFunc :=
  if is_taint_src F.name && F.retInt && !F.users.isEmpty then
    if F.users.any (fun u => u.isInst && !is_taint_src u.parentName) then
      { F with insts := F.insts.map (fun i =>
          if i.isRet then { i with sinkMD := some ("return".data) } else i) }
    else F
  else F

/-- Claim C7: if `F` is a taint source, returns an integer, and has a user
instruction located in a non-taint-source function, every `Return` instruction
of `F` is annotated `SINK("return")`; if `F` has no such user, the rule leaves
`F` unchanged (no return is annotated by it). -/
theorem C7_return_sink_rule (F : MFunc)
    (h1 : is_taint_src F.name = true) (h2 : F.retInt = true) :
    ((F.users.any (fun u => u.isInst && !is_taint_src u.parentName)) = true →
      ∀ i ∈ (mark_ret_sinks F).insts, i.isRet = true →
        i.sinkMD = some ("return".data))
    ∧ ((F.users.any (fun u => u.isInst && !is_taint_src u.parentName)) = false →
      mark_ret_sinks F = F) := by
  constructor
  · intro hany i hi hret
    have hne : F.users.isEmpty = false := by
      cases hu : F.users with
      | nil => rw [hu] at hany; simp [List.any] at hany
      | cons a t => simp [hu]
    unfold mark_ret_sinks at hi
    rw [h1, h2, hne] at hi
    simp only [Bool.and_true, Bool.and_self, Bool.not_false, if_true] at hi
    rw [hany] at hi
    simp only [if_true] at hi
    rcases List.mem_map.mp hi with ⟨j, hj, hij⟩
    by_cases hjr : j.isRet
    · rw [if_pos hjr] at hij
      rw [← hij]
    · rw [if_neg hjr] at hij
      rw [← hij] at hret
      exact absurd hret hjr
  · intro hnone
    unfold mark_ret_sinks
    by_cases hne : F.users.isEmpty
    · rw [hne]
      simp
    · rw [eq_false_of_ne_true hne] at *
      rw [h1, h2]
      simp only [Bool.and_true, Bool.not_false, Bool.and_self, if_true]
      rw [hnone]
      simp

def wFn : MFunc :=
  { name := "sys_a".data, retInt := true,
    users := [{ isInst := true, parentName := "main".data }],
    insts := [{ isRet := true, sinkMD := none }, { isRet := false, sinkMD := none }] }

/-- Witness for C7: `sys_a` returns an integer and is used by an instruction in
`main` (not a source), so its return instruction gets `SINK("return")`. -/
theorem C7_return_sink_witness :
    is_taint_src wFn.name = true
    ∧ (∀ i ∈ (mark_ret_sinks wFn).insts, i.isRet = true →
        i.sinkMD = some ("return".data)) :=
  ⟨by decide,
   (C7_return_sink_rule wFn (by decide) (by decide)).1 (by decide)⟩

/-- The shape of an instruction as dispatched by `is_sink_reachable`: a store
(with whether its pointer operand is a global, and the other users of that
global), or any other instruction (with, for a call to a function with a body,
the users of that callee's arguments — the set traversed by
`taint_bcast_sink(f->args())`). -/
inductive TKind (n : Nat) where
  | store (isGlobal : Bool) (gvUsers : List (Fin n))
  | other (argUsers : Option (List (Fin n)))

/-- The use-def graph over which `is_sink_reachable` recurses: for each
instruction, its `mkint.sink` metadata flag, its kind, and its users. -/
structure TG (n : Nat) where
  sinkMD : Fin n → Bool
  kind : Fin n → TKind n
  users : Fin n → List (Fin n)

/-- Sequential disjunction of recursive results over a user list, in program
order; `none` (a recursive call that does not return) is absorbing, as a
non-returning recursion in the C++ never reaches the later users. -/
def isrMany {n : Nat} (rec : Fin n → Option Bool) (us : List (Fin n)) : Option Bool :=
  us.foldl (fun acc u => acc.bind (fun a => (rec u).map (fun b => a || b)))
    (some false)

/-- Translated from mkint.cpp, `is_sink_reachable` (lines 532-600), indexed by
the recursion depth still allowed: `some b` means the C++ call returns `b`
within that depth, `none` means it does not return within it (the function has
no visited set, so on cyclic graphs no depth suffices).  An instruction with
`SINK` metadata returns true; a store to a global recurses on the global's
other users; any other instruction first broadcasts through a called body's
argument users (when present) and then recurses on its own users. -/
def isr {n : Nat} (g : TG n) : Nat → Fin n → Option Bool
  | 0, _ => none
  | fuel + 1, i =>
    if g.sinkMD i then some true
    else
      match g.kind i with
      | TKind.store isGlob gvUsers =>
        if isGlob then isrMany (isr g fuel) gvUsers
        else some false
      | TKind.other argUsers =>
        let fromCall := match argUsers with
          | none => some false
          | some l => isrMany (isr g fuel) l
        fromCall.bind (fun a =>
          (isrMany (isr g fuel) (g.users i)).map (fun b => a || b))

/-- The two-instruction use-def cycle of a phi in a loop:
`%x = phi [.., %y]` and `%y = add %x, 1`; each is the other's user, neither
carries `SINK` metadata. -/
def cycleG : TG 2 :=
  { sinkMD := fun _ => false,
    kind := fun _ => TKind.other none,
    users := fun i => if i.val = 0 then [(1 : Fin 2)] else [(0 : Fin 2)] }

/-- Claim C8 states that `is_sink_reachable` terminates on every module,
including cyclic use-def graphs.  On the two-instruction phi/add cycle the
recursion never returns at any allowed depth: the code has no visited set, so
the C++ recursion is unbounded (a stack overflow), refuting the claim. -/
theorem C8_sink_reachable_diverges_on_cycle :
    ∀ fuel : Nat, isr cycleG fuel 0 = none ∧ isr cycleG fuel 1 = none := by
  intro fuel
  induction fuel with
  | zero => exact ⟨rfl, rfl⟩
  | succ n ih =>
    have hs : ∀ i, cycleG.sinkMD i = false := fun _ => rfl
    have hk : ∀ i, cycleG.kind i = TKind.other none := fun _ => rfl
    have hu0 : cycleG.users 0 = [(1 : Fin 2)] := by decide
    have hu1 : cycleG.users 1 = [(0 : Fin 2)] := by decide
    constructor
    · show isr cycleG (n + 1) 0 = none
      simp only [isr, hs, hk, hu0, isrMany, List.foldl]
      simp [ih.2]
    · show isr cycleG (n + 1) 1 = none
      simp only [isr, hs, hk, hu1, isrMany, List.foldl]
      simp [ih.1]

/-- The taint-propagation view of a module with `n` functions: which functions
are taint sources, and which functions each function's argument broadcast
(`taint_bcast_sink(f->args())` with its nested `is_sink_reachable` calls)
inserts into `m_taint_funcs`.  The inserted functions are functions of the
module, which `Fin n` enforces. -/
structure TaintModule (n : Nat) where
  isSrc : Fin n → Bool
  discovered : Fin n → Finset (Fin n)

/-- One round of the do-while loop of `run` (lines 716-723 of mkint.cpp): every
already-tainted non-source function has its arguments re-broadcast, which only
ever inserts into `m_taint_funcs` (a `SetVector`; nothing is ever removed). -/
def taintRound {n : Nat} (M : TaintModule n) (s : Finset (Fin n)) : Finset (Fin n) :=
  s ∪ s.biUnion (fun f => if M.isSrc f then ∅ else M.discovered f)

/-- Translated from mkint.cpp, `run` (lines 715-723): the do-while loop,
indexed by the number of rounds still permitted.  Each round snapshots
`m_taint_funcs.size()`, runs the round, and exits when the size is unchanged.
The result is (rounds executed, final set, whether the loop exited before the
permitted rounds ran out). -/
def tpGo {n : Nat} (round : Finset (Fin n) → Finset (Fin n)) :
    Nat → Finset (Fin n) → Nat × Finset (Fin n) × Bool
  | 0, s => (0, s, false)
  | f + 1, s =>
    let s2 := round s
    if s2.card = s.card then (1, s2, true)
    else
      let p := tpGo round f s2
      (p.1 + 1, p.2.1, p.2.2)

theorem tpGo_succ_eq {n : Nat} (round : Finset (Fin n) → Finset (Fin n))
    (f : Nat) (s : Finset (Fin n)) :
    tpGo round (f + 1) s =
      if (round s).card = s.card then (1, round s, true)
      else ((tpGo round f (round s)).1 + 1, (tpGo round f (round s)).2.1,
        (tpGo round f (round s)).2.2) := rfl

theorem taintRound_subset {n : Nat} (M : TaintModule n) (s : Finset (Fin n)) :
    s ⊆ taintRound M s :=
  Finset.subset_union_left

theorem tpGo_rounds_le {n : Nat} (round : Finset (Fin n) → Finset (Fin n)) :
    ∀ (f : Nat) (s : Finset (Fin n)), (tpGo round f s).1 ≤ f := by
  intro f
  induction f with
  | zero => intro s; exact Nat.le_refl 0
  | succ m ih =>
    intro s
    rw [tpGo_succ_eq]
    split
    · exact Nat.le_add_left 1 m
    · exact Nat.succ_le_succ (ih (round s))

theorem tpGo_keeps_subset {n : Nat} (M : TaintModule n) :
    ∀ (f : Nat) (s : Finset (Fin n)),
      s ⊆ (tpGo (taintRound M) f s).2.1 := by
  intro f
  induction f with
  | zero => intro s; exact Finset.Subset.refl s
  | succ m ih =>
    intro s
    rw [tpGo_succ_eq]
    split
    · exact taintRound_subset M s
    · exact Finset.Subset.trans (taintRound_subset M s) (ih (taintRound M s))

theorem tpGo_finishes {n : Nat} (M : TaintModule n) :
    ∀ (f : Nat) (s : Finset (Fin n)),
      n + 1 ≤ f + s.card → (tpGo (taintRound M) f s).2.2 = true := by
  intro f
  induction f with
  | zero =>
    intro s hf
    exfalso
    have hcard : s.card ≤ n := by
      have := Finset.card_le_univ s
      simpa using this
    omega
  | succ m ih =>
    intro s hf
    rw [tpGo_succ_eq]
    split
    · rfl
    · rename_i hne
      have hsub := taintRound_subset M s
      have hle : s.card ≤ (taintRound M s).card := Finset.card_le_card hsub
      have hlt : s.card < (taintRound M s).card := lt_of_le_of_ne hle (Ne.symm hne)
      exact ih (taintRound M s) (by omega)

/-- Claim C9: the taint-propagation do-while loop of `run` terminates:
`m_taint_funcs` never shrinks across a round, and with `n` functions in the
module the loop exits (the size stabilises) within `n + 1` rounds — one round
more than the number of functions — never exhausting the permitted rounds. -/
theorem C9_taint_loop_terminates {n : Nat} (M : TaintModule n)
    (s0 : Finset (Fin n)) :
    s0 ⊆ taintRound M s0
    ∧ (tpGo (taintRound M) (n + 1) s0).2.2 = true
    ∧ (tpGo (taintRound M) (n + 1) s0).1 ≤ n + 1
    ∧ s0 ⊆ (tpGo (taintRound M) (n + 1) s0).2.1 :=
  ⟨taintRound_subset M s0,
   tpGo_finishes M (n + 1) s0 (Nat.le_add_right _ _),
   tpGo_rounds_le (taintRound M) (n + 1) s0,
   tpGo_keeps_subset M (n + 1) s0⟩
